import Mathlib

/-!
Verification of the NewsClassification pipeline (src/usmlproject.py).

Text is modelled as `List Char` (the ASCII fragment, which is the decisive
fragment for every property below).  Pure Python functions become Lean
functions; the scikit-learn / numpy collaborators that the script calls
(train_test_split, TfidfVectorizer, NMF, accuracy_score, confusion_matrix,
np.random.choice) are not part of the repository, so they are modelled from
the specification's contracts; each such definition carries a doc comment
saying so.  All definitions come first, the lemmas and the claim theorems
follow.
-/

/-! ## Definitions

### Character classes used by `preprocess_text`

The source does `text.lower()`, then `re.sub(r'[^\w\s]', '', text)`, then
`text.split()`.  `\w` matches alphanumerics and the underscore; `\s`
matches the six ASCII whitespace characters; `str.lower` maps the ASCII
range A-Z to a-z (which is exactly `Char.toLower`). -/

/-- Python regular-expression class `\s` on the ASCII range: space, tab,
newline, vertical tab, form feed, carriage return. -/
def pyIsSpace (c : Char) : Bool :=
  c = ' ' || c = '\t' || c = '\n' || c = '\x0b' || c = '\x0c' || c = '\r'

/-- Python regular-expression class `\w` on the ASCII range: alphanumeric
characters and the underscore. -/
def isWordChar (c : Char) : Bool :=
  c.isAlphanum || c = '_'

/-- Characters kept by `re.sub(r'[^\w\s]', '', text)`: word characters and
whitespace survive, everything else is deleted. -/
def keepChar (c : Char) : Bool :=
  isWordChar c || pyIsSpace c

/-- One step of the standard `words`-by-`foldr` algorithm: a whitespace
character opens a fresh (possibly empty) segment, any other character is
prepended to the current first segment. -/
def addChar (c : Char) (acc : List (List Char)) : List (List Char) :=
  if pyIsSpace c then [] :: acc
  else
    match acc with
    | [] => [[c]]
    | t :: ts => (c :: t) :: ts

/-- Segments of a character list delimited by whitespace, including the
empty segments produced by leading/trailing/repeated whitespace. -/
def splitRaw (s : List Char) : List (List Char) :=
  s.foldr addChar []

/-- Python `str.split()` with no separator argument: split on runs of
whitespace and drop empty tokens. -/
def splitWS (s : List Char) : List (List Char) :=
  (splitRaw s).filter (fun t => !t.isEmpty)

/-- Python `" ".join(tokens)`: concatenate the tokens with a single space
between consecutive tokens. -/
def joinSpace : List (List Char) → List Char
  | [] => []
  | [t] => t
  | t :: ts => t ++ ' ' :: joinSpace ts

/-- The apostrophe character, used by the stopword contractions. -/
def apostrophe : Char := Char.ofNat 39

/-- Builds a contraction word such as the English negations in the NLTK
stopword list: the two fragments joined by an apostrophe. -/
def contraction (a b : String) : List Char :=
  a.toList ++ apostrophe :: b.toList

/-- Modelled from the spec: the "externally supplied, language-specific set
of common words, loaded once at process start" — the NLTK English stopword
list that `stopwords.words('english')` returns (the list itself ships with
NLTK, not with this repository).  This part of the list holds the
apostrophe-free words. -/
def baseStopwords : List String :=
  ["i", "me", "my", "myself", "we", "our", "ours", "ourselves", "you",
   "your", "yours", "yourself", "yourselves", "he", "him", "his", "himself",
   "she", "her", "hers", "herself", "it", "its", "itself", "they", "them",
   "their", "theirs", "themselves", "what", "which", "who", "whom", "this",
   "that", "these", "those", "am", "is", "are", "was", "were", "be", "been",
   "being", "have", "has", "had", "having", "do", "does", "did", "doing",
   "a", "an", "the", "and", "but", "if", "or", "because", "as", "until",
   "while", "of", "at", "by", "for", "with", "about", "against", "between",
   "into", "through", "during", "before", "after", "above", "below", "to",
   "from", "up", "down", "in", "out", "on", "off", "over", "under", "again",
   "further", "then", "once", "here", "there", "when", "where", "why",
   "how", "all", "any", "both", "each", "few", "more", "most", "other",
   "some", "such", "no", "nor", "not", "only", "own", "same", "so", "than",
   "too", "very", "s", "t", "can", "will", "just", "don", "should", "now",
   "d", "ll", "m", "o", "re", "ve", "y", "ain", "aren", "couldn", "didn",
   "doesn", "hadn", "hasn", "haven", "isn", "ma", "mightn", "mustn",
   "needn", "shan", "shouldn", "wasn", "weren", "won", "wouldn"]

/-- Modelled from the spec: the cached stopword set `stop_words_set` of the
source (line 191), i.e. the full NLTK English stopword list including the
contractions. -/
def stop_words_set : List (List Char) :=
  baseStopwords.map String.toList ++
  [contraction "you" "re", contraction "you" "ve", contraction "you" "ll",
   contraction "you" "d", contraction "she" "s", contraction "it" "s",
   contraction "that" "ll", contraction "don" "t", contraction "should" "ve",
   contraction "aren" "t", contraction "couldn" "t", contraction "didn" "t",
   contraction "doesn" "t", contraction "hadn" "t", contraction "hasn" "t",
   contraction "haven" "t", contraction "isn" "t", contraction "mightn" "t",
   contraction "mustn" "t", contraction "needn" "t", contraction "shan" "t",
   contraction "shouldn" "t", contraction "wasn" "t", contraction "weren" "t",
   contraction "won" "t", contraction "wouldn" "t"]

/-- The text normaliser of the source with the stopword set as an explicit
parameter: lowercase (`text.lower()`), delete the characters matched by
`[^\w\s]` (`re.sub`), split on whitespace (`text.split()`), drop stopwords,
and rejoin with single spaces (`" ".join`). -/
def preprocessWith (SW : List (List Char)) (text : List Char) : List Char :=
  joinSpace
    (((splitWS ((text.map Char.toLower).filter keepChar)).filter
      (fun w => !SW.contains w)))

/-- `preprocess_text` of the source (lines 193-201): the normaliser run
against the cached NLTK stopword set. -/
def preprocess_text (text : List Char) : List Char :=
  preprocessWith stop_words_set text

/-! ### The normalisation steps in the specification's own words

The spec describes the normaliser as five steps: (a) lowercase; (b) strip
characters outside a keep-class; (c) split on whitespace into tokens;
(d) drop stopword tokens; (e) rejoin with single spaces.  The following
definitions state those steps with an independent implementation (a
chunk-based splitter and `List.intercalate`), parameterised by the
keep-class of step (b), so that the source normaliser can be compared
against the claimed steps. -/

/-- Chunk-based whitespace splitting, following the spec words for step
(c): drop leading whitespace, take the maximal non-whitespace run as the
next token, recurse on the remainder.  The fuel argument makes the
recursion structural. -/
def splitTokens : Nat → List Char → List (List Char)
  | 0, _ => []
  | fuel + 1, s =>
    match s.dropWhile pyIsSpace with
    | [] => []
    | c :: rest =>
      (c :: rest.takeWhile (fun d => !pyIsSpace d)) ::
        splitTokens fuel (rest.dropWhile (fun d => !pyIsSpace d))

/-- The five normalisation steps as the specification states them, with the
step-(b) keep-class a parameter. -/
def normalizeSteps (keep : Char → Bool) (SW : List (List Char))
    (text : List Char) : List Char :=
  List.intercalate [' ']
    ((splitTokens ((text.map Char.toLower).filter keep).length
        ((text.map Char.toLower).filter keep)).filter
      (fun w => !(decide (w ∈ SW))))

/-- The keep-class exactly as claim C2/C3 word it: alphanumeric characters
and whitespace survive the stripping step. -/
def alnumOrSpace (c : Char) : Bool :=
  c.isAlphanum || pyIsSpace c

/-- The amended keep-class: word characters (alphanumeric or underscore)
and whitespace survive the stripping step. -/
def wordOrSpace (c : Char) : Bool :=
  c.isAlphanum || c = '_' || pyIsSpace c

/-- The normaliser that the claim describes: steps (a)-(e) with stripping
of every character that is neither alphanumeric nor whitespace. -/
def claimNormalize (SW : List (List Char)) (text : List Char) : List Char :=
  normalizeSteps alnumOrSpace SW text

/-- The amended normaliser: steps (a)-(e) with stripping of every character
that is neither a word character (alphanumeric or underscore) nor
whitespace. -/
def amendedNormalize (SW : List (List Char)) (text : List Char) : List Char :=
  normalizeSteps wordOrSpace SW text

/-! ### The splitter

`train_test_split(X_tfidf, df['category'], test_size=0.3, random_state=42)`
(source line 218) is a scikit-learn collaborator, so it is modelled from
the spec contract: a seeded pseudo-random permutation of the `N` sample
indices, the first `⌈f·N⌉` of which form the TEST set and the remaining
`N − ⌈f·N⌉` the TRAIN set. -/

/-- A linear-congruential step, standing in for the library's seeded
pseudo-random generator state transition. -/
def lcgNext (s : Nat) : Nat :=
  (1103515245 * s + 12345) % 2147483648

/-- Fuel-driven selection shuffle: repeatedly pick the element indexed by
the generator state modulo the remaining length, then continue on the list
with that position removed.  With fuel at least the list length this
produces a permutation. -/
def shuffleFuel : Nat → Nat → List Nat → List Nat
  | 0, _, _ => []
  | _ + 1, _, [] => []
  | fuel + 1, st, a :: r =>
    let l := a :: r
    let i := st % l.length
    l.getD i 0 :: shuffleFuel fuel (lcgNext st) (l.take i ++ l.drop (i + 1))

/-- Modelled from the spec: the seeded pseudo-random permutation that the
splitter (and the sweep's subsampler) draws. -/
def npShuffle (seed : Nat) (l : List Nat) : List Nat :=
  shuffleFuel l.length seed l

/-- Ceiling of a non-negative rational, computed on the numerator and
denominator so that it evaluates by kernel reduction. -/
def ceilQ (q : ℚ) : Nat :=
  (q.num.toNat + q.den - 1) / q.den

/-- Truncation of a non-negative rational toward zero (Python `int()`). -/
def truncQ (q : ℚ) : Nat :=
  q.num.toNat / q.den

/-- Modelled from the spec: `train_test_split` with `N` samples, test
fraction `f` and a seed returns `(TRAIN, TEST)` index lists — a seeded
permutation of `0..N-1` whose first `⌈f·N⌉` entries are TEST and whose
remainder is TRAIN. -/
def train_test_split (N : Nat) (f : ℚ) (seed : Nat) : List Nat × List Nat :=
  let perm := npShuffle seed (List.range N)
  let nTest := ceilQ (f * N)
  (perm.drop nTest, perm.take nTest)

/-- The split the pipeline performs (source line 218): `test_size=0.3`,
`random_state=42`. -/
def pipelineSplit (N : Nat) : List Nat × List Nat :=
  train_test_split N (3 / 10) 42

/-! ### The vectorizer

`TfidfVectorizer(max_features=10000)` (source line 207) is a scikit-learn
collaborator modelled from the spec contract: fitting builds a vocabulary
of distinct terms capped at `max_features` by document frequency, and the
weight of a vocabulary term in a document is the term frequency times the
inverse document frequency of the fitting corpus, rows normalised (the
exact smoothing/normalisation formula is an implementation choice by the
spec; this model uses `(1+n)/(1+df)` and L1 row normalisation, both of
which keep the weights rational and non-negative). -/

/-- Terms (tokens) of a normalised document. -/
def tokensOf (doc : List Char) : List (List Char) :=
  splitWS doc

/-- Number of fitting documents in which a term occurs. -/
def docFreq (docs : List (List Char)) (t : List Char) : Nat :=
  docs.countP (fun d => (tokensOf d).contains t)

/-- Modelled from the spec: the fitted vocabulary — distinct terms of the
fitting corpus ranked by document frequency (highest first), truncated to
the configured maximum number of features. -/
def fitVocabulary (docs : List (List Char)) (maxFeatures : Nat) : List (List Char) :=
  (((docs.map tokensOf).flatten.dedup).insertionSort
    (fun a b => docFreq docs b ≤ docFreq docs a)).take maxFeatures

/-- Modelled from the spec: smoothed inverse document frequency, a rational
implementation choice in place of `ln((1+n)/(1+df)) + 1`. -/
def smoothIdf (nDocs df : Nat) : ℚ :=
  (1 + nDocs) / (1 + df)

/-- The unnormalised weight row of one document: for each vocabulary term,
its count in the document times the term's inverse document frequency. -/
def tfidfRawRow (docs : List (List Char)) (vocab : List (List Char))
    (doc : List Char) : List ℚ :=
  vocab.map
    (fun t => ((tokensOf doc).count t : ℚ) * smoothIdf docs.length (docFreq docs t))

/-- Modelled from the spec: transforming one document against a fitted
vocabulary — term counts weighted by inverse document frequency, then L1
row normalisation with an all-zero row left as is. -/
def tfidfRow (docs : List (List Char)) (vocab : List (List Char))
    (doc : List Char) : List ℚ :=
  if (tfidfRawRow docs vocab doc).sum = 0 then tfidfRawRow docs vocab doc
  else (tfidfRawRow docs vocab doc).map (fun x => x / (tfidfRawRow docs vocab doc).sum)

/-- The configured vocabulary cap of the source (line 207). -/
def max_features : Nat := 10000

/-- The vocabulary the pipeline fits, with the configured cap. -/
def tfidfVocab (docs : List (List Char)) : List (List Char) :=
  fitVocabulary docs max_features

/-- Modelled from the spec: `fit_transform` — fit the vocabulary on the
given documents and transform each of those same documents. -/
def tfidfMatrix (docs : List (List Char)) : List (List ℚ) :=
  docs.map (tfidfRow docs (tfidfVocab docs))

/-- The normalised corpus `df['text_preprocessed']` (source line 204). -/
def preprocessedCorpus (corpus : List (List Char)) : List (List Char) :=
  corpus.map preprocess_text

/-- `X_tfidf` of the source (line 208): the vectorizer is fit on — and
transforms — every preprocessed document of the corpus, before any split
happens. -/
def X_tfidf (corpus : List (List Char)) : List (List ℚ) :=
  tfidfMatrix (preprocessedCorpus corpus)

/-- The row indices the vectorizer is fit on in the source: all of them,
because `fit_transform` (line 208) runs on the full corpus and the split
(line 218) only slices the already-transformed matrix. -/
def fitIndices (N : Nat) : List Nat :=
  List.range N

/-! ### The latent topic reducer

`NMF(n_components=K, random_state=42, init='nndsvd', max_iter=500)`
(source lines 233 and 256) is a scikit-learn collaborator modelled from
the spec contract: fitting factorises the training matrix into two
non-negative factors by a seeded non-negative initialisation followed by
iterative multiplicative updates up to the iteration cap, and transforming
projects new rows into the learned topic space without altering the
learned topic-term matrix. -/

/-- Matrices are lists of rational rows. -/
abbrev Mat : Type := List (List ℚ)

/-- Column count of a matrix (length of its first row). -/
def nCols (X : Mat) : Nat :=
  (X.headD []).length

/-- Transpose: column `j` collects the `j`-th entry of every row that has
one. -/
def matTranspose (X : Mat) : Mat :=
  (List.range (nCols X)).map (fun j => X.filterMap (fun row => row[j]?))

/-- Dot product of two rows (zip-multiply, then sum). -/
def dotQ (a b : List ℚ) : ℚ :=
  (List.zipWith (· * ·) a b).sum

/-- Matrix product. -/
def matMul (A B : Mat) : Mat :=
  A.map (fun row => (matTranspose B).map (fun col => dotQ row col))

/-- Entrywise product. -/
def entrywiseMul (A B : Mat) : Mat :=
  List.zipWith (List.zipWith (· * ·)) A B

/-- Entrywise quotient (with the total rational division). -/
def entrywiseDiv (A B : Mat) : Mat :=
  List.zipWith (List.zipWith (· / ·)) A B

/-- Modelled from the spec: one strictly positive pseudo-random initial
entry, derived from the seed and the entry position. -/
def nmfInitEntry (seed i j cols : Nat) : ℚ :=
  ((lcgNext (seed + i * cols + j)) % 1000 + 1 : Nat) / 1000

/-- Seeded non-negative initialisation of the document-topic factor. -/
def nmfInitW (seed rows K : Nat) : Mat :=
  (List.range rows).map (fun i => (List.range K).map (fun j => nmfInitEntry seed i j K))

/-- Seeded non-negative initialisation of the topic-term factor. -/
def nmfInitH (seed K cols : Nat) : Mat :=
  (List.range K).map (fun i => (List.range cols).map (fun j => nmfInitEntry (lcgNext seed) i j cols))

/-- One multiplicative update of both factors (the standard
Lee-Seung update, with total rational division). -/
def nmfUpdate (X W H : Mat) : Mat × Mat :=
  let H2 := entrywiseMul H
    (entrywiseDiv (matMul (matTranspose W) X) (matMul (matMul (matTranspose W) W) H))
  let W2 := entrywiseMul W
    (entrywiseDiv (matMul X (matTranspose H2)) (matMul W (matMul H2 (matTranspose H2))))
  (W2, H2)

/-- Iterated multiplicative updates up to the iteration cap. -/
def nmfIter (X : Mat) : Nat → Mat × Mat → Mat × Mat
  | 0, WH => WH
  | n + 1, WH => nmfIter X n (nmfUpdate X WH.1 WH.2)

/-- Modelled from the spec: fitting the reducer on a matrix — seeded
non-negative initialisation, then multiplicative updates up to the cap;
returns the pair `(W, H)` of factors. -/
def nmf_fit (X : Mat) (K seed maxIter : Nat) : Mat × Mat :=
  nmfIter X maxIter (nmfInitW seed X.length K, nmfInitH seed K (nCols X))

/-- Modelled from the spec: projecting new rows into the already-learned
topic space; the learned factor `H` is read, never written. -/
def nmf_transform (H : Mat) (Xnew : Mat) : Mat :=
  matMul Xnew (matTranspose H)

/-- The result of one reducer stage: the rows the reducer was fit on, the
two learned factors, and the projected test rows. -/
structure NmfRun where
  fitInput : Mat
  W : Mat
  H : Mat
  Wtest : Mat

/-- The rows of a matrix selected by an index list. -/
def rowsAt (X : Mat) (idx : List Nat) : Mat :=
  idx.filterMap (fun i => X[i]?)

/-- The reducer stage as the source runs it (lines 233-235 and 256-258):
fit on the TRAIN rows only, then transform the TEST rows with the fitted
factors. -/
def runNMFStage (X : Mat) (trainIdx testIdx : List Nat)
    (K seed maxIter : Nat) : NmfRun :=
  let Xtr := rowsAt X trainIdx
  let WH := nmf_fit Xtr K seed maxIter
  { fitInput := Xtr, W := WH.1, H := WH.2,
    Wtest := nmf_transform WH.2 (rowsAt X testIdx) }

/-- The iteration cap configured in the source (lines 233 and 256). -/
def max_iter : Nat := 500

/-- The full reducer stage of the pipeline for a given corpus and latent
dimensionality `K` (the source uses `K = 50` and sweeps `{20, 50, 100}`). -/
def pipelineNMF (corpus : List (List Char)) (K : Nat) : NmfRun :=
  runNMFStage (X_tfidf corpus) (pipelineSplit corpus.length).1
    (pipelineSplit corpus.length).2 K 42 max_iter

/-! ### The evaluator

`accuracy_score` and `confusion_matrix` (source lines 243-247) are
scikit-learn collaborators modelled from the spec contract. -/

/-- Modelled from the spec: accuracy — the number of positions where the
two label sequences agree, divided by the total number of positions. -/
def accuracy_score (y p : List Nat) : ℚ :=
  (((y.zip p).countP (fun q => q.1 == q.2) : ℕ) : ℚ) / (y.length : ℚ)

/-- The label axis of the confusion matrix: the distinct labels occurring
in either sequence, in increasing order. -/
def cmLabels (y p : List Nat) : List Nat :=
  ((y ++ p).dedup).insertionSort (· ≤ ·)

/-- One confusion-matrix row: for a fixed true label, the count of sample
positions carrying each predicted label. -/
def cmRow (y p : List Nat) (a : Nat) : List Nat :=
  (cmLabels y p).map (fun b => (y.zip p).countP (fun q => q.1 == a && q.2 == b))

/-- Modelled from the spec: the confusion matrix — a square array of
(true label, predicted label) counts over the sorted distinct labels. -/
def confusion_matrix (y p : List Nat) : List (List Nat) :=
  (cmLabels y p).map (cmRow y p)

/-! ### The training-fraction sweep's subsampler

`np.random.choice(range(n), k, replace=False)` (source line 301) draws
from numpy's process-global generator, and the source never seeds that
generator; the model therefore takes the ambient generator state `g` as an
input that is not part of the run's configuration. -/

/-- Modelled from the spec: drawing `k` distinct indices out of `0..n-1`
from the global generator in state `g` — the first `k` entries of the
state-dependent permutation. -/
def np_random_choice (g n k : Nat) : List Nat :=
  (npShuffle g (List.range n)).take k

/-- The subset of TRAIN rows the fraction sweep trains on for fraction
`frac` (source line 301): `int(frac * n)` indices drawn without
replacement from the unseeded global generator in state `g`. -/
def sweepSubset (g : Nat) (nTrain : Nat) (frac : ℚ) : List Nat :=
  np_random_choice g nTrain (truncQ (frac * nTrain))

/-- The training fractions the sweep visits (source line 298). -/
def train_sizes : List ℚ :=
  [1/10, 2/10, 5/10, 1]

/-- Entrywise non-negativity of a matrix. -/
def NonnegM (A : Mat) : Prop :=
  ∀ row ∈ A, ∀ x ∈ row, 0 ≤ x

/-! ## Lemmas

### Elementary facts about the character operations -/

/-- Shifting an ASCII uppercase code point by 32 stays a valid code point. -/
lemma toNat_ofNat_shift (n : Nat) (h1 : 65 ≤ n) (h2 : n ≤ 90) :
    (Char.ofNat (n + 32)).toNat = n + 32 := by
  interval_cases n <;> rfl

/-- Lowercasing is idempotent: a lowered character is outside the A-Z range,
so a second pass leaves it unchanged. -/
lemma toLower_toLower (c : Char) : c.toLower.toLower = c.toLower := by
  unfold Char.toLower
  by_cases h : c.toNat ≥ 65 ∧ c.toNat ≤ 90
  · rw [if_pos h, if_neg]
    rw [toNat_ofNat_shift c.toNat h.1 h.2]
    omega
  · rw [if_neg h, if_neg h]

/-- A character that is not an ASCII uppercase letter is fixed by
`Char.toLower`. -/
lemma toLower_eq_self (c : Char) (h : c.isUpper = false) : c.toLower = c := by
  unfold Char.toLower
  rw [if_neg]
  intro hc
  have : c.isUpper = true := by
    unfold Char.isUpper
    have h1 : c.val ≥ 65 := hc.1
    have h2 : c.val ≤ 90 := hc.2
    simp [h1, h2]
  rw [this] at h
  exact absurd h (by simp)

/-- A character deleted by the `[^\w\s]` substitution is in particular not
an uppercase letter, hence fixed by lowercasing. -/
lemma toLower_eq_self_of_not_keep (c : Char) (h : keepChar c = false) :
    c.toLower = c := by
  apply toLower_eq_self
  have hw : isWordChar c = false := by
    cases hiw : isWordChar c
    · rfl
    · simp [keepChar, hiw] at h
  have ha : c.isAlphanum = false := by
    cases hal : c.isAlphanum
    · rfl
    · simp [isWordChar, hal] at hw
  cases hup : c.isUpper
  · rfl
  · simp [Char.isAlphanum, Char.isAlpha, hup] at ha

/-! ### Facts about whitespace splitting and rejoining -/

/-- Unfolding `addChar` at a whitespace character. -/
lemma addChar_space {c : Char} (h : pyIsSpace c = true) (acc : List (List Char)) :
    addChar c acc = [] :: acc := by
  unfold addChar
  rw [if_pos h]

/-- Unfolding `addChar` at a non-whitespace character and an empty
accumulator. -/
lemma addChar_nonspace_nil {c : Char} (h : pyIsSpace c = false) :
    addChar c [] = [[c]] := by
  unfold addChar
  rw [if_neg (by simp [h])]

/-- Unfolding `addChar` at a non-whitespace character and a nonempty
accumulator. -/
lemma addChar_nonspace_cons {c : Char} (h : pyIsSpace c = false)
    (t : List Char) (ts : List (List Char)) :
    addChar c (t :: ts) = (c :: t) :: ts := by
  unfold addChar
  rw [if_neg (by simp [h])]

/-- Unfolding `splitRaw` at a cons cell. -/
lemma splitRaw_cons (a : Char) (s : List Char) :
    splitRaw (a :: s) = addChar a (splitRaw s) := rfl

/-- A leading whitespace character does not change the token list. -/
lemma splitWS_cons_space {c : Char} (h : pyIsSpace c = true) (s : List Char) :
    splitWS (c :: s) = splitWS s := by
  unfold splitWS
  rw [splitRaw_cons, addChar_space h]
  simp [List.filter_cons]

/-- A run of whitespace characters in front of the input does not change the
token list. -/
lemma splitWS_leading_space (pre s : List Char) (h : ∀ c ∈ pre, pyIsSpace c = true) :
    splitWS (pre ++ s) = splitWS s := by
  induction pre with
  | nil => rfl
  | cons c pre ih =>
    rw [List.cons_append, splitWS_cons_space (h c (List.mem_cons_self c pre)) _,
      ih (fun d hd => h d (List.mem_cons_of_mem c hd))]

/-- All-whitespace input yields no tokens. -/
lemma splitWS_all_space (s : List Char) (h : ∀ c ∈ s, pyIsSpace c = true) :
    splitWS s = [] := by
  have := splitWS_leading_space s [] h
  rwa [List.append_nil] at this

/-- Raw segments of a whitespace-free nonempty input: the whole input as
one segment. -/
lemma splitRaw_spacefree (t : List Char) (h : ∀ c ∈ t, pyIsSpace c = false)
    (hne : t ≠ []) : splitRaw t = [t] := by
  induction t with
  | nil => exact absurd rfl hne
  | cons c t ih =>
    cases t with
    | nil =>
      rw [splitRaw_cons, show splitRaw [] = [] from rfl,
        addChar_nonspace_nil (h c (List.mem_cons_self c []))]
    | cons d t2 =>
      have hrec : splitRaw (d :: t2) = [d :: t2] :=
        ih (fun x hx => h x (List.mem_cons_of_mem c hx)) (by simp)
      rw [splitRaw_cons, hrec,
        addChar_nonspace_cons (h c (List.mem_cons_self c _)) _ _]

/-- Splitting a whitespace-free block followed by a whitespace separator:
the block becomes one raw segment in front of the segments of the rest. -/
lemma splitRaw_append_sep (t r : List Char) (d : Char)
    (h : ∀ c ∈ t, pyIsSpace c = false) (hd : pyIsSpace d = true) :
    splitRaw (t ++ d :: r) = t :: splitRaw r := by
  induction t with
  | nil =>
    rw [List.nil_append, splitRaw_cons, addChar_space hd]
  | cons c t ih =>
    rw [List.cons_append, splitRaw_cons,
      ih (fun x hx => h x (List.mem_cons_of_mem c hx)),
      addChar_nonspace_cons (h c (List.mem_cons_self c _)) _ _]

/-- Every character of every raw segment is a non-whitespace character of
the input. -/
lemma mem_splitRaw_spec (s : List Char) :
    ∀ t ∈ splitRaw s, ∀ c ∈ t, pyIsSpace c = false ∧ c ∈ s := by
  induction s with
  | nil => intro t ht; exact absurd ht (List.not_mem_nil t)
  | cons a s ih =>
    intro t ht c hc
    rw [splitRaw_cons] at ht
    by_cases ha : pyIsSpace a = true
    · rw [addChar_space ha] at ht
      rcases List.mem_cons.mp ht with h1 | h2
      · subst h1; exact absurd hc (List.not_mem_nil c)
      · obtain ⟨hsp, hmem⟩ := ih t h2 c hc
        exact ⟨hsp, List.mem_cons_of_mem a hmem⟩
    · have ha' : pyIsSpace a = false := Bool.not_eq_true _ ▸ (by simpa using ha)
      cases hsr : splitRaw s with
      | nil =>
        rw [hsr, addChar_nonspace_nil ha'] at ht
        rcases List.mem_singleton.mp ht with rfl
        rcases List.mem_singleton.mp hc with rfl
        exact ⟨ha', List.mem_cons_self c s⟩
      | cons t0 ts =>
        rw [hsr, addChar_nonspace_cons ha' t0 ts] at ht
        rcases List.mem_cons.mp ht with h1 | h2
        · subst h1
          rcases List.mem_cons.mp hc with rfl | hct0
          · exact ⟨ha', List.mem_cons_self c s⟩
          · obtain ⟨hsp, hmem⟩ := ih t0 (hsr ▸ List.mem_cons_self t0 ts) c hct0
            exact ⟨hsp, List.mem_cons_of_mem a hmem⟩
        · obtain ⟨hsp, hmem⟩ := ih t (hsr ▸ List.mem_cons_of_mem t0 h2) c hc
          exact ⟨hsp, List.mem_cons_of_mem a hmem⟩

/-- Tokens produced by `splitWS` are nonempty, whitespace-free, and drawn
from the input. -/
lemma mem_splitWS_spec (s : List Char) :
    ∀ t ∈ splitWS s, t ≠ [] ∧ ∀ c ∈ t, pyIsSpace c = false ∧ c ∈ s := by
  intro t ht
  unfold splitWS at ht
  have h1 := List.of_mem_filter ht
  have h2 := List.mem_of_mem_filter ht
  refine ⟨?_, mem_splitRaw_spec s t h2⟩
  intro hnil
  subst hnil
  simp at h1

/-- Rejoining whitespace-free nonempty tokens with single spaces and
splitting again recovers exactly the tokens. -/
lemma splitWS_joinSpace (ts : List (List Char))
    (h : ∀ t ∈ ts, t ≠ [] ∧ ∀ c ∈ t, pyIsSpace c = false) :
    splitWS (joinSpace ts) = ts := by
  induction ts with
  | nil => rfl
  | cons t ts ih =>
    cases ts with
    | nil =>
      obtain ⟨hne, hsp⟩ := h t (List.mem_cons_self t [])
      show splitWS t = [t]
      unfold splitWS
      rw [splitRaw_spacefree t hsp hne]
      simp [List.filter_cons, List.isEmpty_iff, hne]
    | cons t2 ts2 =>
      obtain ⟨hne, hsp⟩ := h t (List.mem_cons_self t _)
      have hjoin : joinSpace (t :: t2 :: ts2) = t ++ ' ' :: joinSpace (t2 :: ts2) := rfl
      rw [hjoin]
      unfold splitWS
      rw [splitRaw_append_sep t _ ' ' hsp (by decide)]
      rw [List.filter_cons, if_pos (by simp [List.isEmpty_iff, hne])]
      have := ih (fun u hu => h u (List.mem_cons_of_mem t hu))
      unfold splitWS at this
      rw [this]

/-- Every character of the rejoined string is a space separator or a
character of one of the tokens. -/
lemma mem_joinSpace (ts : List (List Char)) (c : Char) (hc : c ∈ joinSpace ts) :
    c = ' ' ∨ ∃ t ∈ ts, c ∈ t := by
  induction ts with
  | nil => exact absurd hc (List.not_mem_nil c)
  | cons t ts ih =>
    cases ts with
    | nil => exact Or.inr ⟨t, List.mem_cons_self t [], hc⟩
    | cons t2 ts2 =>
      have hjoin : joinSpace (t :: t2 :: ts2) = t ++ ' ' :: joinSpace (t2 :: ts2) := rfl
      rw [hjoin] at hc
      rcases List.mem_append.mp hc with h1 | h2
      · exact Or.inr ⟨t, List.mem_cons_self t _, h1⟩
      · rcases List.mem_cons.mp h2 with rfl | h3
        · exact Or.inl rfl
        · rcases ih h3 with h4 | ⟨u, hu, hcu⟩
          · exact Or.inl h4
          · exact Or.inr ⟨u, List.mem_cons_of_mem t hu, hcu⟩

/-! ### Idempotence of the normaliser -/

/-- Applying the normaliser to its own output changes nothing: the output
is already lowercase, contains only kept characters, splits back into
exactly the surviving tokens, and contains no stopword token. -/
lemma preprocessWith_idem (SW : List (List Char)) (text : List Char) :
    preprocessWith SW (preprocessWith SW text) = preprocessWith SW text := by
  unfold preprocessWith
  set s1 : List Char := (text.map Char.toLower).filter keepChar with hs1
  set toks : List (List Char) := (splitWS s1).filter (fun w => !SW.contains w) with htoks
  have htok_spec : ∀ t ∈ toks, t ≠ [] ∧ ∀ c ∈ t, pyIsSpace c = false := by
    intro t ht
    have hmem : t ∈ splitWS s1 := List.mem_of_mem_filter ht
    obtain ⟨hne, hsp⟩ := mem_splitWS_spec s1 t hmem
    exact ⟨hne, fun c hc => (hsp c hc).1⟩
  have hchars : ∀ c ∈ joinSpace toks, Char.toLower c = c ∧ keepChar c = true := by
    intro c hc
    rcases mem_joinSpace toks c hc with rfl | ⟨t, ht, hct⟩
    · exact ⟨rfl, by decide⟩
    · have hmem : t ∈ splitWS s1 := List.mem_of_mem_filter ht
      obtain ⟨_, hsp⟩ := mem_splitWS_spec s1 t hmem
      have hcs1 : c ∈ s1 := (hsp c hct).2
      have hkeep : keepChar c = true := List.of_mem_filter (hs1 ▸ hcs1)
      have hcmap : c ∈ text.map Char.toLower := List.mem_of_mem_filter (hs1 ▸ hcs1)
      obtain ⟨d, _, hd⟩ := List.mem_map.mp hcmap
      refine ⟨?_, hkeep⟩
      rw [← hd, toLower_toLower]
  have h1 : (joinSpace toks).map Char.toLower = joinSpace toks := by
    rw [List.map_congr_left (fun a ha => (hchars a ha).1)]
    exact List.map_id _
  have h2 : (joinSpace toks).filter keepChar = joinSpace toks :=
    List.filter_eq_self.mpr (fun a ha => (hchars a ha).2)
  have h3 : splitWS (joinSpace toks) = toks := splitWS_joinSpace toks htok_spec
  have h4 : toks.filter (fun w => !SW.contains w) = toks :=
    List.filter_eq_self.mpr (fun a ha =>
      @List.of_mem_filter _ (fun w => !SW.contains w) _ _ (htoks ▸ ha))
  rw [h1, h2, h3, h4]

/-! ### The source normaliser agrees with the amended spec steps -/

/-- Rejoining with single spaces is `List.intercalate` with a one-space
separator. -/
lemma joinSpace_eq_intercalate (ts : List (List Char)) :
    joinSpace ts = List.intercalate [' '] ts := by
  induction ts with
  | nil => simp [joinSpace, List.intercalate]
  | cons t ts ih =>
    cases ts with
    | nil => simp [joinSpace, List.intercalate]
    | cons t2 ts2 =>
      have : List.intercalate [' '] (t :: t2 :: ts2) =
          t ++ ' ' :: List.intercalate [' '] (t2 :: ts2) := by
        simp [List.intercalate, List.intersperse_cons_cons]
      rw [this, ← ih]
      rfl

/-- The chunk-based splitter computes `splitWS` whenever its fuel covers
the input length. -/
lemma splitTokens_eq_splitWS (fuel : Nat) (s : List Char) (hfuel : s.length ≤ fuel) :
    splitTokens fuel s = splitWS s := by
  induction fuel generalizing s with
  | zero =>
    have : s = [] := List.length_eq_zero.mp (Nat.le_zero.mp hfuel)
    subst this
    rfl
  | succ fuel ih =>
    show splitTokens (fuel + 1) s = splitWS s
    unfold splitTokens
    cases hd : s.dropWhile pyIsSpace with
    | nil =>
      rw [splitWS_all_space s (by
        intro c hc
        exact List.dropWhile_eq_nil_iff.mp hd c hc)]
    | cons c rest =>
      have hcs : pyIsSpace c = false := by
        have hne : s.dropWhile pyIsSpace ≠ [] := by simp [hd]
        have := List.head_dropWhile_not pyIsSpace s hne
        rwa [show (s.dropWhile pyIsSpace).head hne = c by simp [hd]] at this
      have hsplit : s = s.takeWhile pyIsSpace ++ c :: rest := by
        conv_lhs => rw [← List.takeWhile_append_dropWhile pyIsSpace s]
        rw [hd]
      have hlen_cr : (c :: rest).length ≤ s.length := by
        conv_rhs => rw [hsplit]
        rw [List.length_append]
        omega
      have hlead : splitWS s = splitWS (c :: rest) := by
        conv_lhs => rw [hsplit]
        exact splitWS_leading_space _ _ (fun x hx => List.mem_takeWhile_imp hx)
      rw [hlead]
      -- chunk step: the maximal non-space run is the next token
      have hchunk : splitWS (c :: rest) =
          (c :: rest.takeWhile (fun d => !pyIsSpace d)) ::
            splitWS (rest.dropWhile (fun d => !pyIsSpace d)) := by
        have hrest : rest = rest.takeWhile (fun d => !pyIsSpace d) ++
            rest.dropWhile (fun d => !pyIsSpace d) :=
          (List.takeWhile_append_dropWhile (fun d => !pyIsSpace d) rest).symm
        have htw : ∀ x ∈ rest.takeWhile (fun d => !pyIsSpace d), pyIsSpace x = false := by
          intro x hx
          have := List.mem_takeWhile_imp hx
          simpa using this
        cases hdw : rest.dropWhile (fun d => !pyIsSpace d) with
        | nil =>
          have hall : rest.takeWhile (fun d => !pyIsSpace d) = rest := by
            have := List.takeWhile_append_dropWhile (fun d => !pyIsSpace d) rest
            rw [hdw, List.append_nil] at this
            exact this
          have hspfree : ∀ x ∈ rest, pyIsSpace x = false := by
            intro x hx
            exact htw x (by rw [hall]; exact hx)
          unfold splitWS
          rw [splitRaw_spacefree (c :: rest)
            (fun x hx => by
              rcases List.mem_cons.mp hx with rfl | hxr
              · exact hcs
              · exact hspfree x hxr) (by simp)]
          rw [hall]
          rfl
        | cons d rem =>
          have hd_space : pyIsSpace d = true := by
            have hne : rest.dropWhile (fun d => !pyIsSpace d) ≠ [] := by simp [hdw]
            have := List.head_dropWhile_not (fun d => !pyIsSpace d) rest hne
            rw [show (rest.dropWhile (fun d => !pyIsSpace d)).head hne = d by
              simp [hdw]] at this
            simpa using this
          have heq : c :: rest =
              (c :: rest.takeWhile (fun d => !pyIsSpace d)) ++ d :: rem := by
            conv_lhs => rw [show rest = rest.takeWhile (fun d => !pyIsSpace d) ++
              rest.dropWhile (fun d => !pyIsSpace d) from hrest]
            rw [hdw]
            rfl
          rw [heq]
          unfold splitWS
          rw [splitRaw_append_sep _ _ d
            (fun x hx => by
              rcases List.mem_cons.mp hx with rfl | hxr
              · exact hcs
              · exact htw x hxr) hd_space]
          rw [List.filter_cons, if_pos (by simp [List.isEmpty_iff])]
          rw [splitRaw_cons, addChar_space hd_space]
          simp [List.filter_cons]
      rw [hchunk]
      show (c :: rest.takeWhile (fun d => !pyIsSpace d)) ::
          splitTokens fuel (rest.dropWhile (fun d => !pyIsSpace d)) =
        (c :: rest.takeWhile (fun d => !pyIsSpace d)) ::
          splitWS (rest.dropWhile (fun d => !pyIsSpace d))
      congr 1
      apply ih
      have h1 : (rest.dropWhile (fun d => !pyIsSpace d)).length ≤ rest.length :=
        (List.dropWhile_sublist _).length_le
      have h2 : rest.length + 1 ≤ s.length := by simpa using hlen_cr
      omega

/-- Boolean list containment agrees with the decidable membership test. -/
lemma contains_eq_decide_mem (w : List Char) (SW : List (List Char)) :
    SW.contains w = decide (w ∈ SW) := by
  by_cases h : w ∈ SW
  · simp [h, List.elem_iff.mpr h]
  · simp only [h, decide_False]
    cases hc : SW.contains w
    · rfl
    · exact absurd (List.elem_iff.mp hc) h

/-- The `[^\w\s]` keep-class is the amended keep-class. -/
lemma keepChar_eq_wordOrSpace (c : Char) : keepChar c = wordOrSpace c := rfl

/-- The source normaliser computes exactly the spec's five steps with the
amended keep-class (word characters or whitespace). -/
lemma preprocessWith_eq_amended (SW : List (List Char)) (text : List Char) :
    preprocessWith SW text = normalizeSteps wordOrSpace SW text := by
  unfold preprocessWith normalizeSteps
  rw [splitTokens_eq_splitWS _ _ (Nat.le_refl _)]
  rw [joinSpace_eq_intercalate]
  have hclass : (text.map Char.toLower).filter wordOrSpace
      = (text.map Char.toLower).filter keepChar :=
    List.filter_congr (fun c _ => (keepChar_eq_wordOrSpace c).symm)
  rw [hclass]
  congr 1
  exact List.filter_congr (fun w _ => by rw [contains_eq_decide_mem])

/-! ### Facts about the splitter -/

/-- With fuel at least the list length, the selection shuffle permutes the
list. -/
lemma shuffleFuel_perm : ∀ (fuel st : Nat) (l : List Nat), l.length ≤ fuel →
    (shuffleFuel fuel st l).Perm l := by
  intro fuel
  induction fuel with
  | zero =>
    intro st l h
    have hl : l = [] := List.length_eq_zero.mp (Nat.le_zero.mp h)
    subst hl
    exact List.Perm.refl _
  | succ fuel ih =>
    intro st l h
    cases l with
    | nil => exact List.Perm.refl _
    | cons a r =>
      have hi : st % (a :: r).length < (a :: r).length :=
        Nat.mod_lt _ (by simp)
      show ((a :: r).getD (st % (a :: r).length) 0 ::
        shuffleFuel fuel (lcgNext st)
          ((a :: r).take (st % (a :: r).length) ++
            (a :: r).drop (st % (a :: r).length + 1))).Perm (a :: r)
      have hrest_len :
          ((a :: r).take (st % (a :: r).length) ++
            (a :: r).drop (st % (a :: r).length + 1)).length ≤ fuel := by
        rw [List.length_append, List.length_take, List.length_drop,
          min_eq_left (Nat.le_of_lt hi)]
        have hlen := h
        simp only [List.length_cons] at hlen hi ⊢
        omega
      have hperm_rest := ih (lcgNext st) _ hrest_len
      rw [List.getD_eq_getElem (a :: r) 0 hi]
      refine List.Perm.trans (List.Perm.cons _ hperm_rest) ?_
      have hsplit : a :: r =
          (a :: r).take (st % (a :: r).length) ++
            (a :: r)[st % (a :: r).length] :: (a :: r).drop (st % (a :: r).length + 1) := by
        conv_lhs => rw [← List.take_append_drop (st % (a :: r).length) (a :: r)]
        congr 1
        exact (List.getElem_cons_drop (a :: r) _ hi).symm
      conv_rhs => rw [hsplit]
      exact List.perm_middle.symm

/-- The seeded shuffle permutes its input. -/
lemma npShuffle_perm (seed : Nat) (l : List Nat) : (npShuffle seed l).Perm l :=
  shuffleFuel_perm l.length seed l (Nat.le_refl _)

/-- The seeded shuffle of a duplicate-free list is duplicate-free. -/
lemma npShuffle_nodup (seed : Nat) (l : List Nat) (h : l.Nodup) :
    (npShuffle seed l).Nodup :=
  (npShuffle_perm seed l).symm.nodup h

/-- Comparing a non-negative rational with a natural number reduces to a
numerator/denominator comparison. -/
lemma rat_le_nat_iff (q : ℚ) (hq : 0 ≤ q) (n : ℕ) :
    q ≤ (n : ℚ) ↔ q.num.toNat ≤ n * q.den := by
  have hnum0 : (0 : ℤ) ≤ q.num := Rat.num_nonneg.mpr hq
  have hden_pos : (0 : ℚ) < (q.den : ℚ) := by
    exact_mod_cast q.pos
  have hcast : ((q.num.toNat : ℕ) : ℚ) = (q.num : ℚ) := by
    rw [← Int.toNat_of_nonneg hnum0]
    push_cast
    rw [Int.toNat_of_nonneg hnum0]
  constructor
  · intro h
    have h1 : (q.num : ℚ) ≤ (n : ℚ) * (q.den : ℚ) := by
      rw [← Rat.num_div_den q] at h
      exact (div_le_iff₀ hden_pos).mp h
    have h2 : ((q.num.toNat : ℕ) : ℚ) ≤ ((n * q.den : ℕ) : ℚ) := by
      rw [hcast]
      push_cast
      exact h1
    exact_mod_cast h2
  · intro h
    rw [← Rat.num_div_den q, div_le_iff₀ hden_pos]
    have h2 : ((q.num.toNat : ℕ) : ℚ) ≤ ((n * q.den : ℕ) : ℚ) := by
      exact_mod_cast h
    rw [hcast] at h2
    push_cast at h2
    exact h2

/-- The computable ceiling is characterised by the Galois property against
the natural numbers. -/
lemma ceilQ_le_iff (q : ℚ) (hq : 0 ≤ q) (n : ℕ) :
    ceilQ q ≤ n ↔ q ≤ (n : ℚ) := by
  unfold ceilQ
  have hb : 0 < q.den := q.pos
  rw [rat_le_nat_iff q hq n]
  rw [Nat.div_le_iff_le_mul_add_pred hb]
  rw [Nat.mul_comm n q.den]
  generalize q.den * n = m
  omega

/-- A non-negative rational is at most its computable ceiling. -/
lemma le_ceilQ (q : ℚ) (hq : 0 ≤ q) : q ≤ (ceilQ q : ℚ) :=
  (ceilQ_le_iff q hq (ceilQ q)).mp (Nat.le_refl _)

/-- The computable ceiling overshoots by less than one. -/
lemma ceilQ_lt_add_one (q : ℚ) (hq : 0 ≤ q) : (ceilQ q : ℚ) < q + 1 := by
  cases hc : ceilQ q with
  | zero =>
    push_cast
    linarith
  | succ m =>
    have h1 : ¬ ceilQ q ≤ m := by omega
    have h2 : ¬ q ≤ (m : ℚ) := fun hle => h1 ((ceilQ_le_iff q hq m).mpr hle)
    push_neg at h2
    push_cast
    linarith

/-- The ceiling of `f · N` does not exceed `N` when `f ≤ 1`. -/
lemma ceilQ_mul_le (N : Nat) (f : ℚ) (hf0 : 0 ≤ f) (hf1 : f ≤ 1) :
    ceilQ (f * N) ≤ N := by
  rw [ceilQ_le_iff (f * N) (mul_nonneg hf0 (Nat.cast_nonneg N)) N]
  calc f * (N : ℚ) ≤ 1 * (N : ℚ) :=
        mul_le_mul_of_nonneg_right hf1 (Nat.cast_nonneg N)
    _ = (N : ℚ) := one_mul _

/-- TEST followed by TRAIN is exactly the seeded permutation of all
indices. -/
lemma train_test_split_append (N : Nat) (f : ℚ) (seed : Nat) :
    (train_test_split N f seed).2 ++ (train_test_split N f seed).1 =
      npShuffle seed (List.range N) := by
  unfold train_test_split
  exact List.take_append_drop _ _

/-- An index is in TRAIN or TEST exactly when it is one of the `N` sample
indices. -/
lemma train_test_split_mem_iff (N : Nat) (f : ℚ) (seed : Nat) (i : Nat) :
    (i ∈ (train_test_split N f seed).1 ∨ i ∈ (train_test_split N f seed).2) ↔ i < N := by
  rw [or_comm, ← List.mem_append, train_test_split_append,
    (npShuffle_perm seed (List.range N)).mem_iff]
  exact List.mem_range

/-- TRAIN and TEST are disjoint. -/
lemma train_test_split_disjoint (N : Nat) (f : ℚ) (seed : Nat) :
    (train_test_split N f seed).1.Disjoint (train_test_split N f seed).2 := by
  unfold train_test_split
  have hnodup : (npShuffle seed (List.range N)).Nodup :=
    npShuffle_nodup seed (List.range N) (List.nodup_range N)
  exact (List.disjoint_take_drop hnodup (Nat.le_refl _)).symm

/-- The TEST partition has exactly `⌈f·N⌉` indices (for a fraction at most
one). -/
lemma train_test_split_test_length (N : Nat) (f : ℚ) (seed : Nat)
    (hf0 : 0 ≤ f) (hf1 : f ≤ 1) :
    (train_test_split N f seed).2.length = ceilQ (f * N) := by
  unfold train_test_split
  rw [List.length_take, (npShuffle_perm seed (List.range N)).length_eq,
    List.length_range]
  exact min_eq_left (ceilQ_mul_le N f hf0 hf1)

/-- The TRAIN partition has exactly the remaining `N − ⌈f·N⌉` indices. -/
lemma train_test_split_train_length (N : Nat) (f : ℚ) (seed : Nat) :
    (train_test_split N f seed).1.length = N - ceilQ (f * N) := by
  unfold train_test_split
  rw [List.length_drop, (npShuffle_perm seed (List.range N)).length_eq,
    List.length_range]

/-! ### Facts about the evaluator -/

/-- Counting first components of a zipped pair list counts in the first
list, when the lists have equal length. -/
lemma countP_fst_zip (a : Nat) : ∀ (y p : List Nat), y.length = p.length →
    (y.zip p).countP (fun q => q.1 == a) = y.count a := by
  intro y
  induction y with
  | nil => intro p h; simp
  | cons b y ih =>
    intro p h
    cases p with
    | nil => simp at h
    | cons c p =>
      simp only [List.zip_cons_cons, List.countP_cons, List.count_cons]
      rw [ih p (by simpa using h)]

/-- The sum of the pointwise indicator of one value over a duplicate-free
list containing it is one. -/
lemma sum_map_indicator (L : List Nat) (x : Nat) (hN : L.Nodup) (hx : x ∈ L) :
    (L.map (fun b => if (x == b) = true then 1 else 0)).sum = 1 := by
  induction L with
  | nil => exact absurd hx (List.not_mem_nil x)
  | cons b L ih =>
    rcases List.mem_cons.mp hx with rfl | hxL
    · have hxnot : x ∉ L := (List.nodup_cons.mp hN).1
      have hzero : (L.map (fun b => if (x == b) = true then 1 else 0)).sum = 0 := by
        apply List.sum_eq_zero
        intro v hv
        obtain ⟨b, hb, rfl⟩ := List.mem_map.mp hv
        rw [if_neg]
        intro hxb
        exact hxnot (beq_iff_eq.mp hxb ▸ hb)
      rw [List.map_cons, List.sum_cons, if_pos (beq_self_eq_true x), hzero]
    · have hne : ¬ (x == b) = true := by
        intro hxb
        have : x = b := beq_iff_eq.mp hxb
        subst this
        exact (List.nodup_cons.mp hN).1 hxL
      simp only [List.map_cons, List.sum_cons, if_neg hne, Nat.zero_add]
      exact ih ((List.nodup_cons.mp hN).2) hxL

/-- Summing one confusion row over all labels counts the pairs whose first
component is the row's true label, provided every second component occurs
among the labels. -/
lemma sum_row_counts (a : Nat) :
    ∀ (z : List (Nat × Nat)) (L : List Nat), L.Nodup → (∀ q ∈ z, q.2 ∈ L) →
    (L.map (fun b => z.countP (fun q => q.1 == a && q.2 == b))).sum =
      z.countP (fun q => q.1 == a) := by
  intro z
  induction z with
  | nil =>
    intro L _ _
    simp
  | cons q z ih =>
    intro L hN hz
    have hq2 : q.2 ∈ L := hz q (List.mem_cons_self q z)
    have hz' : ∀ r ∈ z, r.2 ∈ L := fun r hr => hz r (List.mem_cons_of_mem q hr)
    simp only [List.countP_cons]
    rw [List.sum_map_add]
    rw [ih L hN hz']
    congr 1
    by_cases hqa : (q.1 == a) = true
    · simp only [hqa, Bool.true_and, if_true]
      exact sum_map_indicator L q.2 hN hq2
    · rw [if_neg hqa]
      apply List.sum_eq_zero
      intro v hv
      obtain ⟨b, hb, rfl⟩ := List.mem_map.mp hv
      rw [if_neg]
      simp [hqa]


/-- The confusion-matrix label axis is duplicate-free. -/
lemma cmLabels_nodup (y p : List Nat) : (cmLabels y p).Nodup := by
  unfold cmLabels
  exact (List.perm_insertionSort _ _).symm.nodup (List.nodup_dedup _)

/-- Every predicted label occurs on the confusion-matrix label axis. -/
lemma mem_cmLabels_of_mem_snd (y p : List Nat) (b : Nat) (hb : b ∈ p) :
    b ∈ cmLabels y p := by
  unfold cmLabels
  rw [(List.perm_insertionSort _ _).mem_iff, List.mem_dedup]
  exact List.mem_append.mpr (Or.inr hb)

/-- Each confusion-matrix row sums to the number of samples whose true
label is the row's label. -/
lemma cmRow_sum (y p : List Nat) (h : y.length = p.length) (a : Nat) :
    (cmRow y p a).sum = y.count a := by
  unfold cmRow
  have hz : ∀ q ∈ y.zip p, q.2 ∈ cmLabels y p := by
    intro q hq
    obtain ⟨qa, qb⟩ := q
    exact mem_cmLabels_of_mem_snd y p qb (List.of_mem_zip hq).2
  rw [sum_row_counts a (y.zip p) (cmLabels y p) (cmLabels_nodup y p) hz,
    countP_fst_zip a y p h]

/-- Accuracy is non-negative. -/
lemma accuracy_score_nonneg (y p : List Nat) : 0 ≤ accuracy_score y p :=
  div_nonneg (Nat.cast_nonneg _) (Nat.cast_nonneg _)

/-- Accuracy is at most one for equal-length label sequences. -/
lemma accuracy_score_le_one (y p : List Nat) (h : y.length = p.length) :
    accuracy_score y p ≤ 1 := by
  unfold accuracy_score
  rcases Nat.eq_zero_or_pos y.length with h0 | hpos
  · rw [h0]
    simp
  · rw [div_le_one (by exact_mod_cast hpos)]
    have hcount : (y.zip p).countP (fun q => q.1 == q.2) ≤ (y.zip p).length :=
      List.countP_le_length _
    have hlen : (y.zip p).length = y.length := by
      rw [List.length_zip, h, min_self]
    exact_mod_cast hcount.trans (le_of_eq hlen)

/-! ### Facts about the vectorizer -/

/-- The fitted vocabulary never exceeds the configured cap. -/
lemma fitVocabulary_length_le (docs : List (List Char)) (maxFeatures : Nat) :
    (fitVocabulary docs maxFeatures).length ≤ maxFeatures := by
  unfold fitVocabulary
  rw [List.length_take]
  exact min_le_left _ _

/-- The modelled inverse document frequency is non-negative. -/
lemma smoothIdf_nonneg (n df : Nat) : 0 ≤ smoothIdf n df := by
  unfold smoothIdf
  positivity

/-- A document whose terms all fall outside the vocabulary transforms to
the all-zero feature row. -/
lemma tfidfRow_oov (docs vocab : List (List Char)) (doc : List Char)
    (h : ∀ t ∈ tokensOf doc, t ∉ vocab) :
    tfidfRow docs vocab doc = List.replicate vocab.length 0 := by
  have hraw : tfidfRawRow docs vocab doc = List.replicate vocab.length 0 := by
    unfold tfidfRawRow
    have hzero : ∀ t ∈ vocab,
        ((tokensOf doc).count t : ℚ) * smoothIdf docs.length (docFreq docs t) =
          (0 : ℚ) := by
      intro t ht
      have hnot : t ∉ tokensOf doc := fun htok => h t htok ht
      rw [List.count_eq_zero.mpr hnot]
      simp
    rw [List.map_congr_left hzero]
    have hrep := @List.eq_replicate_of_mem ℚ (0 : ℚ) (vocab.map (fun _ => (0 : ℚ)))
      (fun b hb => by
        obtain ⟨t, _, ht⟩ := List.mem_map.mp hb
        exact ht.symm)
    rwa [List.length_map] at hrep
  unfold tfidfRow
  rw [hraw]
  rw [if_pos (by simp)]

/-- Entries of the unnormalised weight row are non-negative. -/
lemma tfidfRawRow_nonneg (docs vocab : List (List Char)) (doc : List Char) :
    ∀ x ∈ tfidfRawRow docs vocab doc, 0 ≤ x := by
  intro x hx
  unfold tfidfRawRow at hx
  obtain ⟨t, _, rfl⟩ := List.mem_map.mp hx
  exact mul_nonneg (Nat.cast_nonneg _) (smoothIdf_nonneg _ _)

/-- Entries of a transformed row are non-negative. -/
lemma tfidfRow_nonneg (docs vocab : List (List Char)) (doc : List Char) :
    ∀ x ∈ tfidfRow docs vocab doc, 0 ≤ x := by
  intro x hx
  unfold tfidfRow at hx
  split_ifs at hx with hs
  · exact tfidfRawRow_nonneg docs vocab doc x hx
  · obtain ⟨r, hr, rfl⟩ := List.mem_map.mp hx
    refine div_nonneg (tfidfRawRow_nonneg docs vocab doc r hr) ?_
    exact List.sum_nonneg (tfidfRawRow_nonneg docs vocab doc)

/-- The full TF-IDF matrix of the pipeline is entrywise non-negative. -/
lemma X_tfidf_nonneg (corpus : List (List Char)) : NonnegM (X_tfidf corpus) := by
  intro row hrow x hx
  unfold X_tfidf tfidfMatrix at hrow
  obtain ⟨doc, _, rfl⟩ := List.mem_map.mp hrow
  exact tfidfRow_nonneg _ _ doc x hx

/-! ### Facts about the latent topic reducer -/

/-- Membership in a zipped combination comes from members of both lists. -/
lemma mem_zipWith_imp {α β γ : Type} {f : α → β → γ} :
    ∀ {a : List α} {b : List β} {c : γ}, c ∈ List.zipWith f a b →
      ∃ u ∈ a, ∃ v ∈ b, c = f u v := by
  intro a
  induction a with
  | nil => intro b c hc; simp at hc
  | cons x a ih =>
    intro b c hc
    cases b with
    | nil => simp at hc
    | cons y b =>
      rw [List.zipWith_cons_cons] at hc
      rcases List.mem_cons.mp hc with rfl | h2
      · exact ⟨x, List.mem_cons_self x a, y, List.mem_cons_self y b, rfl⟩
      · obtain ⟨u, hu, v, hv, rfl⟩ := ih h2
        exact ⟨u, List.mem_cons_of_mem x hu, v, List.mem_cons_of_mem y hv, rfl⟩

/-- Dot products of non-negative rows are non-negative. -/
lemma dotQ_nonneg (a b : List ℚ) (ha : ∀ x ∈ a, 0 ≤ x) (hb : ∀ x ∈ b, 0 ≤ x) :
    0 ≤ dotQ a b := by
  unfold dotQ
  apply List.sum_nonneg
  intro x hx
  obtain ⟨u, hu, v, hv, rfl⟩ := mem_zipWith_imp hx
  exact mul_nonneg (ha u hu) (hb v hv)

/-- Transposition preserves entrywise non-negativity. -/
lemma matTranspose_nonneg (X : Mat) (h : NonnegM X) : NonnegM (matTranspose X) := by
  intro row hrow x hx
  unfold matTranspose at hrow
  obtain ⟨j, _, rfl⟩ := List.mem_map.mp hrow
  obtain ⟨r, hr, hget⟩ := List.mem_filterMap.mp hx
  exact h r hr x (List.getElem?_mem hget)

/-- Matrix products of entrywise non-negative matrices are entrywise
non-negative. -/
lemma matMul_nonneg (A B : Mat) (hA : NonnegM A) (hB : NonnegM B) :
    NonnegM (matMul A B) := by
  intro row hrow x hx
  unfold matMul at hrow
  obtain ⟨r, hr, rfl⟩ := List.mem_map.mp hrow
  obtain ⟨col, hcol, rfl⟩ := List.mem_map.mp hx
  exact dotQ_nonneg r col (hA r hr) (matTranspose_nonneg B hB col hcol)

/-- Entrywise combination by an operation that preserves non-negativity
preserves entrywise non-negativity. -/
lemma zipWith_entrywise_nonneg (f : ℚ → ℚ → ℚ)
    (hf : ∀ u v, 0 ≤ u → 0 ≤ v → 0 ≤ f u v) (A B : Mat)
    (hA : NonnegM A) (hB : NonnegM B) :
    NonnegM (List.zipWith (List.zipWith f) A B) := by
  intro row hrow x hx
  obtain ⟨ra, hra, rb, hrb, rfl⟩ := mem_zipWith_imp hrow
  obtain ⟨u, hu, v, hv, rfl⟩ := mem_zipWith_imp hx
  exact hf u v (hA ra hra u hu) (hB rb hrb v hv)

/-- The seeded initial factors are entrywise non-negative. -/
lemma nmfInitEntry_nonneg (seed i j cols : Nat) : 0 ≤ nmfInitEntry seed i j cols := by
  unfold nmfInitEntry
  positivity

/-- The seeded initial document-topic factor is entrywise non-negative. -/
lemma nmfInitW_nonneg (seed rows K : Nat) : NonnegM (nmfInitW seed rows K) := by
  intro row hrow x hx
  unfold nmfInitW at hrow
  obtain ⟨i, _, rfl⟩ := List.mem_map.mp hrow
  obtain ⟨j, _, rfl⟩ := List.mem_map.mp hx
  exact nmfInitEntry_nonneg seed i j K

/-- The seeded initial topic-term factor is entrywise non-negative. -/
lemma nmfInitH_nonneg (seed K cols : Nat) : NonnegM (nmfInitH seed K cols) := by
  intro row hrow x hx
  unfold nmfInitH at hrow
  obtain ⟨i, _, rfl⟩ := List.mem_map.mp hrow
  obtain ⟨j, _, rfl⟩ := List.mem_map.mp hx
  exact nmfInitEntry_nonneg (lcgNext seed) i j cols

/-- One multiplicative update preserves entrywise non-negativity of both
factors, for a non-negative data matrix. -/
lemma nmfUpdate_nonneg (X W H : Mat) (hX : NonnegM X) (hW : NonnegM W)
    (hH : NonnegM H) :
    NonnegM (nmfUpdate X W H).1 ∧ NonnegM (nmfUpdate X W H).2 := by
  have hmul : ∀ u v : ℚ, 0 ≤ u → 0 ≤ v → 0 ≤ u * v := fun u v hu hv => mul_nonneg hu hv
  have hdiv : ∀ u v : ℚ, 0 ≤ u → 0 ≤ v → 0 ≤ u / v := fun u v hu hv => div_nonneg hu hv
  have hH2 : NonnegM (nmfUpdate X W H).2 := by
    apply zipWith_entrywise_nonneg _ hmul _ _ hH
    apply zipWith_entrywise_nonneg _ hdiv
    · exact matMul_nonneg _ _ (matTranspose_nonneg W hW) hX
    · exact matMul_nonneg _ _ (matMul_nonneg _ _ (matTranspose_nonneg W hW) hW) hH
  refine ⟨?_, hH2⟩
  apply zipWith_entrywise_nonneg _ hmul _ _ hW
  apply zipWith_entrywise_nonneg _ hdiv
  · exact matMul_nonneg _ _ hX (matTranspose_nonneg _ hH2)
  · exact matMul_nonneg _ _ hW (matMul_nonneg _ _ hH2 (matTranspose_nonneg _ hH2))

/-- Any number of multiplicative updates preserves entrywise
non-negativity of both factors. -/
lemma nmfIter_nonneg (X : Mat) (hX : NonnegM X) :
    ∀ (n : Nat) (WH : Mat × Mat), NonnegM WH.1 → NonnegM WH.2 →
      NonnegM (nmfIter X n WH).1 ∧ NonnegM (nmfIter X n WH).2 := by
  intro n
  induction n with
  | zero => intro WH hW hH; exact ⟨hW, hH⟩
  | succ n ih =>
    intro WH hW hH
    obtain ⟨hW', hH'⟩ := nmfUpdate_nonneg X WH.1 WH.2 hX hW hH
    exact ih (nmfUpdate X WH.1 WH.2) hW' hH'

/-- Both factors returned by fitting the reducer on a non-negative matrix
are entrywise non-negative. -/
lemma nmf_fit_nonneg (X : Mat) (K seed maxIter : Nat) (hX : NonnegM X) :
    NonnegM (nmf_fit X K seed maxIter).1 ∧ NonnegM (nmf_fit X K seed maxIter).2 := by
  unfold nmf_fit
  exact nmfIter_nonneg X hX maxIter _ (nmfInitW_nonneg seed X.length K)
    (nmfInitH_nonneg seed K (nCols X))

/-- Selecting rows preserves entrywise non-negativity. -/
lemma rowsAt_nonneg (X : Mat) (idx : List Nat) (h : NonnegM X) :
    NonnegM (rowsAt X idx) := by
  intro row hrow x hx
  unfold rowsAt at hrow
  obtain ⟨i, _, hget⟩ := List.mem_filterMap.mp hrow
  exact h row (List.getElem?_mem hget) x hx

attribute [irreducible] nmfIter

/-! ### A punctuation-only input normalises to the empty string -/

/-- An input all of whose characters are deleted by the stripping step
normalises to the empty string. -/
lemma preprocessWith_all_punct (SW : List (List Char)) (text : List Char)
    (h : ∀ c ∈ text, keepChar c = false) : preprocessWith SW text = [] := by
  unfold preprocessWith
  have hmap : text.map Char.toLower = text := by
    rw [List.map_congr_left (fun c hc => toLower_eq_self_of_not_keep c (h c hc))]
    exact List.map_id _
  rw [hmap]
  have hstrip : text.filter keepChar = [] :=
    List.filter_eq_nil_iff.mpr (fun c hc => by simp [h c hc])
  rw [hstrip]
  rfl

/-! ## Claim theorems -/

/-- C1: the source fits the vectorizer on every document before splitting
(`fit_transform` on line 208, `train_test_split` on line 218), so in a run
with ten documents the TEST partition is nonempty and every TEST index is
among the indices the vectorizer was fit on — the claimed train-only fit
invariant is violated. -/
theorem vectorizer_fit_includes_test_documents :
    (pipelineSplit 10).2 ≠ [] ∧
      ∀ i ∈ (pipelineSplit 10).2, i ∈ fitIndices 10 := by
  have hceil : ceilQ ((3 / 10 : ℚ) * (10 : ℕ)) = 3 := by
    have h3 : ((3 / 10 : ℚ) * ((10 : ℕ) : ℚ)) = (3 : ℚ) := by
      push_cast
      norm_num
    rw [h3]
    unfold ceilQ
    norm_num
    rfl
  constructor
  · have hlen : (pipelineSplit 10).2.length = 3 := by
      unfold pipelineSplit
      rw [train_test_split_test_length 10 (3 / 10) 42 (by norm_num) (by norm_num)]
      exact hceil
    intro hnil
    rw [hnil] at hlen
    simp at hlen
  · intro i hi
    have := (train_test_split_mem_iff 10 (3 / 10) 42 i).mp (Or.inr hi)
    unfold fitIndices
    exact List.mem_range.mpr this

/-- C2 fails as stated: on the input `a_b` the source normaliser keeps the
underscore (the class `[^\w\s]` spares it), while the claimed steps strip
every character that is not alphanumeric or whitespace and so delete it. -/
theorem preprocess_text_ne_claimed_steps :
    preprocess_text "a_b".toList ≠ claimNormalize stop_words_set "a_b".toList := by
  decide

/-- C2 amended: for every input string, `preprocess_text` returns exactly
the result of the five claimed steps once step (b) strips every character
that is neither a word character (alphanumeric or underscore) nor
whitespace. -/
theorem preprocess_text_eq_amended_steps (text : List Char) :
    preprocess_text text = amendedNormalize stop_words_set text :=
  preprocessWith_eq_amended stop_words_set text

/-- C3 fails as stated: the input `_` consists solely of characters that
are neither alphanumeric nor whitespace, yet the source normaliser returns
`_`, not the empty string. -/
theorem preprocess_text_punct_counterexample :
    (∀ c ∈ "_".toList, (c.isAlphanum || pyIsSpace c) = false) ∧
      preprocess_text "_".toList ≠ [] := by
  decide

/-- C3 amended: an input that is empty or consists solely of characters
that are neither word characters (alphanumeric or underscore) nor
whitespace normalises to the empty string, and that empty normalised
document transforms — without error — into the all-zero feature row of any
fitted vocabulary. -/
theorem preprocess_punct_empty_and_zero_row (docs vocab : List (List Char))
    (text : List Char) (h : ∀ c ∈ text, keepChar c = false) :
    preprocess_text text = [] ∧
      tfidfRow docs vocab (preprocess_text text) =
        List.replicate vocab.length 0 := by
  have hempty : preprocess_text text = [] :=
    preprocessWith_all_punct stop_words_set text h
  refine ⟨hempty, ?_⟩
  rw [hempty]
  apply tfidfRow_oov
  intro t ht
  exact absurd ht (by simp [tokensOf, splitWS, splitRaw])

/-- Witness for the amended C3 at the concrete all-punctuation input. -/
theorem preprocess_punct_empty_and_zero_row_witness :
    (∀ c ∈ "!?".toList, keepChar c = false) ∧
      (preprocess_text "!?".toList = [] ∧
        tfidfRow [['h','i']] [['h','i']] (preprocess_text "!?".toList) =
          List.replicate ([['h','i']] : List (List Char)).length 0) :=
  ⟨by decide,
    preprocess_punct_empty_and_zero_row [['h','i']] [['h','i']] "!?".toList (by decide)⟩

/-- C4: the modelled splitter partitions the `N` sample indices into
disjoint TRAIN and TEST lists whose union is all indices, with TEST of the
exact size `⌈f·N⌉` (within one of `f·N`) and TRAIN the remaining
`N − ⌈f·N⌉`; the partition is a function of `(N, f, seed)` alone, so equal
seeds reproduce it. -/
theorem train_test_split_spec (N : Nat) (f : ℚ) (seed : Nat)
    (hf0 : 0 < f) (hf1 : f < 1) :
    (train_test_split N f seed).1.Disjoint (train_test_split N f seed).2 ∧
    (∀ i, (i ∈ (train_test_split N f seed).1 ∨
      i ∈ (train_test_split N f seed).2) ↔ i < N) ∧
    (train_test_split N f seed).2.length = ceilQ (f * N) ∧
    (train_test_split N f seed).1.length = N - ceilQ (f * N) ∧
    f * N ≤ ((train_test_split N f seed).2.length : ℚ) ∧
    ((train_test_split N f seed).2.length : ℚ) < f * N + 1 ∧
    ∀ seed2, seed2 = seed → train_test_split N f seed2 = train_test_split N f seed := by
  have hq0 : (0 : ℚ) ≤ f * N := mul_nonneg (le_of_lt hf0) (Nat.cast_nonneg N)
  have hlen := train_test_split_test_length N f seed (le_of_lt hf0) (le_of_lt hf1)
  refine ⟨train_test_split_disjoint N f seed,
    train_test_split_mem_iff N f seed,
    hlen,
    train_test_split_train_length N f seed, ?_, ?_, ?_⟩
  · rw [hlen]
    exact le_ceilQ (f * N) hq0
  · rw [hlen]
    exact ceilQ_lt_add_one (f * N) hq0
  · intro seed2 hs
    rw [hs]

/-- Witness for C4 at the pipeline's own configuration (ten samples,
fraction three tenths, seed 42). -/
theorem train_test_split_spec_witness :
    ((0 : ℚ) < 3 / 10 ∧ (3 / 10 : ℚ) < 1) ∧
      (train_test_split 10 (3 / 10) 42).1.Disjoint (train_test_split 10 (3 / 10) 42).2 ∧
      (train_test_split 10 (3 / 10) 42).2.length = ceilQ ((3 / 10) * 10) :=
  ⟨⟨by norm_num, by norm_num⟩,
    (train_test_split_spec 10 (3 / 10) 42 (by norm_num) (by norm_num)).1,
    (train_test_split_spec 10 (3 / 10) 42 (by norm_num) (by norm_num)).2.2.1⟩

/-- C5 evaluated: two runs with identical configuration (ten training
rows, fraction one half) but different ambient global-generator states
select different fraction-sweep subsamples — the source never seeds the
global generator `np.random.choice` draws from, so the sweep is not
deterministic given the configured seeds. -/
theorem sweep_subsample_depends_on_global_state :
    sweepSubset 0 10 (1 / 2) ≠ sweepSubset 1 10 (1 / 2) := by
  have htr : truncQ ((1 / 2 : ℚ) * (10 : ℕ)) = 5 := by
    have h5 : ((1 / 2 : ℚ) * ((10 : ℕ) : ℚ)) = (5 : ℚ) := by
      push_cast
      norm_num
    rw [h5]
    unfold truncQ
    norm_num
    rfl
  unfold sweepSubset np_random_choice
  rw [htr]
  decide

/-- C6: in every pipeline run (any corpus, any latent dimensionality K,
hence every sweep value), the reducer is fit on exactly the TRAIN-indexed
feature rows; the TRAIN and TEST index sets are disjoint; the learned
factors depend only on the TRAIN rows — replacing the TEST index set
changes neither factor; and the projected TEST representation is computed
from the already-fitted topic-term factor, which the projection never
alters. -/
theorem nmf_pipeline_train_only (corpus : List (List Char)) (K : Nat) :
    (pipelineNMF corpus K).fitInput =
      rowsAt (X_tfidf corpus) (pipelineSplit corpus.length).1 ∧
    (pipelineSplit corpus.length).1.Disjoint (pipelineSplit corpus.length).2 ∧
    (∀ otherTest,
      (runNMFStage (X_tfidf corpus) (pipelineSplit corpus.length).1 otherTest
        K 42 max_iter).H = (pipelineNMF corpus K).H ∧
      (runNMFStage (X_tfidf corpus) (pipelineSplit corpus.length).1 otherTest
        K 42 max_iter).W = (pipelineNMF corpus K).W) ∧
    (pipelineNMF corpus K).Wtest =
      nmf_transform (pipelineNMF corpus K).H
        (rowsAt (X_tfidf corpus) (pipelineSplit corpus.length).2) := by
  refine ⟨rfl, ?_, fun otherTest => ⟨rfl, rfl⟩, rfl⟩
  unfold pipelineSplit
  exact train_test_split_disjoint corpus.length (3 / 10) 42

/-- Witness for C6 at a concrete two-document corpus and the smallest
sweep dimensionality. -/
theorem nmf_pipeline_train_only_witness :
    (pipelineNMF ["ab cd".toList, "ab ef".toList] 20).fitInput =
      rowsAt (X_tfidf ["ab cd".toList, "ab ef".toList])
        (pipelineSplit (["ab cd".toList, "ab ef".toList] : List (List Char)).length).1 :=
  (nmf_pipeline_train_only ["ab cd".toList, "ab ef".toList] 20).1

/-- C7: fitting the reducer on the pipeline's TRAIN feature rows yields an
entrywise non-negative document-topic factor and an entrywise non-negative
topic-term factor, for every corpus and every configured K. -/
theorem nmf_factors_nonneg (corpus : List (List Char)) (K : Nat) :
    NonnegM (pipelineNMF corpus K).W ∧ NonnegM (pipelineNMF corpus K).H := by
  have hX : NonnegM (rowsAt (X_tfidf corpus) (pipelineSplit corpus.length).1) :=
    rowsAt_nonneg _ _ (X_tfidf_nonneg corpus)
  exact nmf_fit_nonneg _ K 42 max_iter hX

/-- Witness for C7 at a concrete one-document corpus and K = 50. -/
theorem nmf_factors_nonneg_witness :
    NonnegM (pipelineNMF ["ab".toList] 50).W ∧
      NonnegM (pipelineNMF ["ab".toList] 50).H :=
  nmf_factors_nonneg ["ab".toList] 50

/-- C8: for equal-length true and predicted label sequences, accuracy is
the agreement count divided by the total, lies in `[0,1]`, and every
confusion-matrix row sums to the number of samples whose true label is the
row's label. -/
theorem evaluator_spec (y p : List Nat) (h : y.length = p.length) :
    accuracy_score y p =
      (((y.zip p).countP (fun q => q.1 == q.2) : ℕ) : ℚ) / (y.length : ℚ) ∧
    0 ≤ accuracy_score y p ∧
    accuracy_score y p ≤ 1 ∧
    ∀ a ∈ cmLabels y p, (cmRow y p a).sum = y.count a :=
  ⟨rfl, accuracy_score_nonneg y p, accuracy_score_le_one y p h,
    fun a _ => cmRow_sum y p h a⟩

/-- Witness for C8 at a concrete four-sample evaluation. -/
theorem evaluator_spec_witness :
    ([0, 1, 1, 0] : List Nat).length = ([0, 1, 0, 0] : List Nat).length ∧
      ∀ a ∈ cmLabels [0, 1, 1, 0] [0, 1, 0, 0],
        (cmRow [0, 1, 1, 0] [0, 1, 0, 0] a).sum = List.count a [0, 1, 1, 0] :=
  ⟨rfl, (evaluator_spec [0, 1, 1, 0] [0, 1, 0, 0] rfl).2.2.2⟩

/-- C9: the fitted vocabulary never has more than the configured 10000
terms, and transforming a document whose terms all fall outside the fitted
vocabulary succeeds, yielding the all-zero feature row of the vocabulary's
width. -/
theorem vectorizer_cap_and_oov (docs : List (List Char)) (doc : List Char)
    (h : ∀ t ∈ tokensOf doc, t ∉ tfidfVocab docs) :
    (tfidfVocab docs).length ≤ 10000 ∧
      tfidfRow docs (tfidfVocab docs) doc =
        List.replicate (tfidfVocab docs).length 0 :=
  ⟨fitVocabulary_length_le docs max_features, tfidfRow_oov docs _ doc h⟩

/-- Witness for C9: a fitted two-term vocabulary and a fully
out-of-vocabulary document. -/
theorem vectorizer_cap_and_oov_witness :
    (∀ t ∈ tokensOf "zzz qq".toList, t ∉ tfidfVocab ["cat sat".toList]) ∧
      ((tfidfVocab ["cat sat".toList]).length ≤ 10000 ∧
        tfidfRow ["cat sat".toList] (tfidfVocab ["cat sat".toList]) "zzz qq".toList =
          List.replicate (tfidfVocab ["cat sat".toList]).length 0) :=
  ⟨by decide, vectorizer_cap_and_oov ["cat sat".toList] "zzz qq".toList (by decide)⟩

/-- C10: `preprocess_text` is idempotent — applying it to its own output
returns that output unchanged. -/
theorem preprocess_text_idempotent (text : List Char) :
    preprocess_text (preprocess_text text) = preprocess_text text :=
  preprocessWith_idem stop_words_set text
